import Mathlib

/-!
Verification of the two-stage transform in `src/curriculum.js`:
stage 1, `cleanJsonForLLM` (the Normalizer), and stage 2,
`downloadJsonAsCsv` (the TabularExporter).  JavaScript values are
shallowly embedded as the inductive `JVal`; fallible JavaScript
(exceptions raised by `Date.prototype.toISOString` on invalid dates and
by property access on `null`) is embedded in the `Except String` monad.
-/

namespace Curriculum

/-- Tagged union of the JavaScript values the program manipulates:
strings, (integer) numbers, booleans, `null`, arrays and plain objects.
Objects are ordered field lists; keys are assumed unique, as they are for
every object constructed by the program.  Numbers are modelled as
integers (all numbers the program produces are list lengths or copied
scalars); `undefined` is modelled as `Option.none` where it can occur. -/
inductive JVal where
  | str (s : String)
  | num (n : Int)
  | bool (b : Bool)
  | null
  | arr (elems : List JVal)
  | obj (fields : List (String × JVal))

/-- JavaScript truthiness of a value: `null`, `false`, `0` and the empty
string are falsy; every array and object is truthy. -/
def truthy : JVal → Bool
  | JVal.null => false
  | JVal.bool b => b
  | JVal.num n => decide (n ≠ 0)
  | JVal.str s => decide (s ≠ "")
  | JVal.arr _ => true
  | JVal.obj _ => true

/-- Truthiness of a possibly-undefined value (`undefined` is falsy). -/
def truthyU : Option JVal → Bool
  | none => false
  | some v => truthy v

/-- First-match lookup in an object's field list (field lists model
JavaScript objects, whose keys are unique). -/
def lookupStr (k : String) : List (String × JVal) → Option JVal
  | [] => none
  | p :: rest => if p.1 = k then some p.2 else lookupStr k rest

/-- Named-property access, `v[k]` for a statically known name `k`: on an
object it looks the key up, on every other value it yields `undefined`
(modelled as `none`).  The names the program reads this way (`docs`,
`_source`, the raw field names, `status`, `title`) are not array or
string index/length properties, so this is faithful for them; indexed
access for the exporter is modelled separately by `jsGetE`. -/
def propGet : JVal → String → Option JVal
  | JVal.obj fs, k => lookupStr k fs
  | _, _ => none

/-! ### The modelled subset of JavaScript dates -/

/-- A parsed JavaScript `Date`, held as its UTC calendar fields
(the program only ever reads the `getUTC*` projections or
`toISOString`, both of which are determined by these fields). -/
structure JsDate where
  year : Int
  month : Nat
  day : Nat
  hour : Nat
  minute : Nat
  second : Nat
  ms : Nat
deriving DecidableEq

/-- Numeric value of a pair of decimal digit characters. -/
def d2 (a b : Char) : Option Nat :=
  if a.isDigit && b.isDigit then some ((a.toNat - 48) * 10 + (b.toNat - 48)) else none

/-- Numeric value of four decimal digit characters. -/
def d4 (a b c d : Char) : Option Nat :=
  match d2 a b, d2 c d with
  | some hi, some lo => some (hi * 100 + lo)
  | _, _ => none

/-- Gregorian leap-year test. -/
def isLeap (y : Nat) : Bool :=
  y % 4 == 0 && (y % 100 != 0 || y % 400 == 0)

/-- Number of days in a month of the proleptic Gregorian calendar. -/
def daysInMonth (y m : Nat) : Nat :=
  if m = 2 then (if isLeap y then 29 else 28)
  else if m = 4 ∨ m = 6 ∨ m = 9 ∨ m = 11 then 30
  else 31

/-- Range-check the components of a calendar date-time, as the
ECMAScript ISO parser does (out-of-range components make the string
unparseable rather than rolling over). -/
def mkJsDate (y mo dd h mi s ms : Nat) : Option JsDate :=
  if 1 ≤ mo && mo ≤ 12 && 1 ≤ dd && dd ≤ daysInMonth y mo
      && h ≤ 23 && mi ≤ 59 && s ≤ 59 then
    some ⟨(y : Int), mo, dd, h, mi, s, ms⟩
  else none

/-- Model of `new Date(string)` parsing.  It implements the mandatory
ECMAScript Date Time String Format (a simplification of ISO 8601)
restricted to its fully-specified UTC forms: `YYYY-MM-DD` (UTC
midnight), `YYYY-MM-DDTHH:MM:SSZ` and `YYYY-MM-DDTHH:MM:SS.sssZ`.
Every other string is treated as unparseable, yielding an Invalid Date
(engine-specific lenient formats and local-time forms are outside the
modelled subset). -/
def parseDate (s : String) : Option JsDate :=
  match s.data with
  | [y1, y2, y3, y4, '-', o1, o2, '-', a1, a2] => do
      let y ← d4 y1 y2 y3 y4
      let mo ← d2 o1 o2
      let dd ← d2 a1 a2
      mkJsDate y mo dd 0 0 0 0
  | [y1, y2, y3, y4, '-', o1, o2, '-', a1, a2, 'T',
     h1, h2, ':', i1, i2, ':', c1, c2, 'Z'] => do
      let y ← d4 y1 y2 y3 y4
      let mo ← d2 o1 o2
      let dd ← d2 a1 a2
      let h ← d2 h1 h2
      let mi ← d2 i1 i2
      let sec ← d2 c1 c2
      mkJsDate y mo dd h mi sec 0
  | [y1, y2, y3, y4, '-', o1, o2, '-', a1, a2, 'T',
     h1, h2, ':', i1, i2, ':', c1, c2, '.', f1, f2, f3, 'Z'] => do
      let y ← d4 y1 y2 y3 y4
      let mo ← d2 o1 o2
      let dd ← d2 a1 a2
      let h ← d2 h1 h2
      let mi ← d2 i1 i2
      let sec ← d2 c1 c2
      let f1 ← d2 '0' f1
      let f2 ← d2 '0' f2
      let f3 ← d2 '0' f3
      mkJsDate y mo dd h mi sec (f1 * 100 + f2 * 10 + f3)
  | _ => none

/-- Civil date from a count of days since 1970-01-01 (Gregorian),
the standard era-based algorithm. -/
def civilFromDays (z0 : Int) : Int × Nat × Nat :=
  let z : Int := z0 + 719468
  let era : Int := Int.ediv z 146097
  let doe : Nat := (Int.emod z 146097).toNat
  let yoe : Nat := (doe - doe / 1460 + doe / 36524 - doe / 146096) / 365
  let y : Int := (yoe : Int) + era * 400
  let doy : Nat := doe - (365 * yoe + yoe / 4 - yoe / 100)
  let mp : Nat := (5 * doy + 2) / 153
  let d : Nat := doy - (153 * mp + 2) / 5 + 1
  let m : Nat := if mp < 10 then mp + 3 else mp - 9
  (y + (if m ≤ 2 then 1 else 0), m, d)

/-- Model of `new Date(number)`: an epoch-milliseconds time value, an
Invalid Date when its magnitude exceeds the ECMAScript limit. -/
def epochToDate (msv : Int) : Option JsDate :=
  if msv < -8640000000000000 ∨ 8640000000000000 < msv then none
  else
    let day : Int := Int.ediv msv 86400000
    let tod : Nat := (Int.emod msv 86400000).toNat
    let c := civilFromDays day
    some ⟨c.1, c.2.1, c.2.2, tod / 3600000, tod / 60000 % 60, tod / 1000 % 60, tod % 1000⟩

/-- Model of `new Date(v)` for the value shapes the program can pass:
strings are parsed per `parseDate`, numbers are epoch milliseconds,
booleans coerce to `0`/`1`, `null` coerces to `0`.  Arrays and objects
(whose `toPrimitive` coercion no call site of this program exercises)
are outside the modelled subset and yield an Invalid Date. -/
def jsDateOf : JVal → Option JsDate
  | JVal.str s => parseDate s
  | JVal.num n => epochToDate n
  | JVal.bool b => epochToDate (if b then 1 else 0)
  | JVal.null => epochToDate 0
  | JVal.arr _ => none
  | JVal.obj _ => none

/-- Left-pad the decimal rendering of a number with zeros to width `w`
(models `String(num).padStart(w, '0')`). -/
def padNum (w n : Nat) : String :=
  let s := toString n
  if s.length < w then String.mk (List.replicate (w - s.length) '0') ++ s else s

/-- Render a year as `toISOString` does: four padded digits for years
0–9999, the signed six-digit expanded form otherwise. -/
def isoYear (y : Int) : String :=
  if 0 ≤ y ∧ y ≤ 9999 then padNum 4 y.toNat
  else if y < 0 then "-" ++ padNum 6 (-y).toNat
  else "+" ++ padNum 6 y.toNat

/-- Rendering of a valid date by `Date.prototype.toISOString`. -/
def isoString (d : JsDate) : String :=
  isoYear d.year ++ "-" ++ padNum 2 d.month ++ "-" ++ padNum 2 d.day ++ "T"
    ++ padNum 2 d.hour ++ ":" ++ padNum 2 d.minute ++ ":" ++ padNum 2 d.second
    ++ "." ++ padNum 3 d.ms ++ "Z"

/-- Model of `new Date(v).toISOString()`: on an Invalid Date,
`toISOString` throws `RangeError: Invalid time value` (it does not
return a sentinel string), which the `Except` error embeds. -/
def toISOStringE (v : JVal) : Except String String :=
  match jsDateOf v with
  | some d => Except.ok (isoString d)
  | none => Except.error "RangeError: Invalid time value"

/-- Model of `Array.prototype.map` with a callback that can throw: the
callback runs left to right and the first exception aborts the whole
map, propagating outward. -/
def mapME (f : α → Except String β) : List α → Except String (List β)
  | [] => Except.ok []
  | a :: rest =>
      match f a with
      | Except.error e => Except.error e
      | Except.ok b =>
          match mapME f rest with
          | Except.error e => Except.error e
          | Except.ok r => Except.ok (b :: r)

/-! ### Stage 1: the Normalizer, `cleanJsonForLLM` -/

/-- The static rename table of `cleanJsonForLLM`, in source order:
original raw field name to canonical output key. -/
def KEY_MAP : List (String × String) :=
  [("event_title_text", "title"),
   ("event_details_text", "details"),
   ("event_status_text", "status"),
   ("event_location_text", "location"),
   ("academic_year_option_academic_years", "academic_year"),
   ("year_option_year", "year"),
   ("module_option_modules", "module"),
   ("speciality_option_speciality", "speciality"),
   ("cpp_module_option_speciality", "cpp_speciality"),
   ("student_count_number", "student_count"),
   ("event_duration_hrs_number", "duration_hours"),
   ("online_boolean", "is_online"),
   ("cpp_boolean", "is_cpp"),
   ("event_canceled_boolean", "is_cancelled"),
   ("site_option_sites", "site")]

/-- Model of `value.replace(/_/g, '')`: remove every underscore. -/
def stripUnderscores (s : String) : String :=
  String.mk (s.data.filter (fun c => c ≠ '_'))

/-- Test for the JavaScript value `null` (used for the loose
`!= null` comparison, whose other failing case, `undefined`, is an
absent lookup in this model). -/
def isNullJ : JVal → Bool
  | JVal.null => true
  | _ => false

/-- The year special case of the rename loop: when the canonical key is
`year` and the value is a string, strip underscores; any other value or
key is copied unchanged. -/
def transformVal (nk : String) (v : JVal) : JVal :=
  if nk = "year" then
    match v with
    | JVal.str s => JVal.str (stripUnderscores s)
    | _ => v
  else v

/-- One iteration of the rename loop: the field contributed by a
`KEY_MAP` entry `p`, or nothing when `source[p.1]` is `null` or
`undefined` (the `!= null` guard). -/
def copyEntry (src : JVal) (p : String × String) : Option (String × JVal) :=
  match propGet src p.1 with
  | some v => if isNullJ v then none else some (p.2, transformVal p.2 v)
  | none => none

/-- The rename loop of `cleanJsonForLLM` step 1: fold over `KEY_MAP` in
order, assigning each contributed field to the fresh `cleanedEvent`
object (assignment of a fresh key appends the field). -/
def copyMapped (src : JVal) : List (String × JVal) :=
  KEY_MAP.foldl
    (fun acc p =>
      match copyEntry src p with
      | some fld => acc ++ [fld]
      | none => acc)
    []

/-- One timestamp conversion of step 2: when the raw value is present
and truthy, produce the field `k` bound to `new Date(v).toISOString()`
(which can throw); otherwise produce no field. -/
def maybeIsoE (k : String) (v : Option JVal) : Except String (List (String × JVal)) :=
  match v with
  | some w =>
      if truthy w then
        match toISOStringE w with
        | Except.error e => Except.error e
        | Except.ok s => Except.ok [(k, JVal.str s)]
      else Except.ok []
  | none => Except.ok []

/-- One list summarization of step 3: when the raw value is an array,
produce the field `k` bound to its length; otherwise produce no field. -/
def countField (k : String) (v : Option JVal) : List (String × JVal) :=
  match v with
  | some (JVal.arr xs) => [(k, JVal.num xs.length)]
  | _ => []

/-- Per-document body of the `rawData.docs.map` callback: a falsy
document or a falsy/absent `_source` yields `null` (to be filtered
later); otherwise the cleaned event object is assembled from the rename
loop, the two timestamp conversions (in source order, so an invalid
start date throws before the end date is examined) and the three list
counts. -/
def processDocE (d : JVal) : Except String JVal :=
  if truthy d then
    match propGet d "_source" with
    | some src =>
        if truthy src then
          match maybeIsoE "start_time_utc" (propGet src "strat_date_and_time_date") with
          | Except.error e => Except.error e
          | Except.ok tf1 =>
              match maybeIsoE "end_time_utc" (propGet src "end_date_and_time_date") with
              | Except.error e => Except.error e
              | Except.ok tf2 =>
                  Except.ok (JVal.obj (copyMapped src ++ tf1 ++ tf2
                    ++ countField "teacher_count" (propGet src "teachers_list_user")
                    ++ countField "attendance_yes_count"
                        (propGet src "attended_yes_list_custom_student_info")
                    ++ countField "attendance_no_count"
                        (propGet src "attended_no_list_custom_student_info")))
        else Except.ok JVal.null
    | none => Except.ok JVal.null
  else Except.ok JVal.null

/-- Test whether a value is the literal string `"Archived"`, the only
case in which the strict comparison `event.status !== "Archived"` is
false. -/
def isArchivedStatus : Option JVal → Bool
  | some (JVal.str s) => s == "Archived"
  | _ => false

/-- The retention predicate of step 4:
`event && event.status !== "Archived" && event.title`. -/
def keepEvent (e : JVal) : Bool :=
  truthy e && !isArchivedStatus (propGet e "status") && truthyU (propGet e "title")

/-- The `{ events: [] }` result returned on invalid top-level input. -/
def emptyResult : JVal := JVal.obj [("events", JVal.arr [])]

/-- The Normalizer, `cleanJsonForLLM`: on a falsy input or one whose
`docs` property is not an array, log a diagnostic and return
`{ events: [] }`; otherwise map `processDocE` over the documents (an
exception in the callback propagates out of the whole call), filter by
the retention predicate and wrap the result as `{ events: ... }`. -/
def cleanJsonForLLM (raw : Option JVal) : Except String JVal :=
  match raw with
  | some v =>
      if truthy v then
        match propGet v "docs" with
        | some (JVal.arr docs) =>
            match mapME processDocE docs with
            | Except.error e => Except.error e
            | Except.ok mapped =>
                Except.ok (JVal.obj [("events", JVal.arr (mapped.filter keepEvent))])
        | _ => Except.ok emptyResult
      else Except.ok emptyResult
  | none => Except.ok emptyResult

/-- Package a list of documents as the raw input object
`{ docs: [...] }`. -/
def mkBatch (docs : List JVal) : Option JVal :=
  some (JVal.obj [("docs", JVal.arr docs)])

/-! ### Stage 2: the TabularExporter, `downloadJsonAsCsv` -/

mutual

/-- Conversion of a value to text as JavaScript `String(v)` does for the
shapes a cell can hold: strings unchanged, integer numbers in decimal,
booleans `true`/`false`, `null` as `"null"` (the caller shields `null`
with `?? ''` before ever stringifying it), arrays joined by commas with
`null` elements rendering empty, objects as `[object Object]`. -/
def jsToStr : JVal → String
  | JVal.str s => s
  | JVal.num n => toString n
  | JVal.bool b => if b then "true" else "false"
  | JVal.null => "null"
  | JVal.arr xs => String.intercalate "," (jsToStrList xs)
  | JVal.obj _ => "[object Object]"

/-- Element-wise stringification of `Array.prototype.toString`:
`null` (and `undefined`) elements render as the empty string. -/
def jsToStrList : List JVal → List String
  | [] => []
  | JVal.null :: rest => "" :: jsToStrList rest
  | x :: rest => jsToStr x :: jsToStrList rest

end

/-- The test of the regex `/[",\n]/`: does the text contain a comma, a
double-quote or a newline? -/
def hasCsvSpecial (s : String) : Bool :=
  s.data.any (fun c => c = ',' || c = '"' || c = '\n')

/-- Model of `strCell.replace(/"/g, '""')`: double every double-quote. -/
def doubleQuotesCh (s : String) : String :=
  String.mk (s.data.flatMap (fun c => if c = '"' then ['"', '"'] else [c]))

/-- The `escapeCsvCell` helper: `null`/`undefined` become the empty
string via `cell ?? ''`, other values are stringified; a cell containing
a comma, double-quote or newline is wrapped in double-quotes with
internal double-quotes doubled, and any other cell is left unchanged. -/
def escapeCsvCell (v : Option JVal) : String :=
  let strCell :=
    match v with
    | none => ""
    | some JVal.null => ""
    | some w => jsToStr w
  if hasCsvSpecial strCell then "\"" ++ doubleQuotesCh strCell ++ "\""
  else strCell

/-- The `formatDateForExcel` helper: a falsy or non-string value yields
the empty string; an unparseable string, or one parsing to a UTC year
before 1980, is returned unchanged; otherwise the date renders as
zero-padded `YYYY-MM-DD HH:MM:SS` from its UTC calendar fields. -/
def formatDateForExcel (v : Option JVal) : String :=
  match v with
  | some (JVal.str s) =>
      if s = "" then ""
      else
        match parseDate s with
        | none => s
        | some d =>
            if d.year < 1980 then s
            else
              toString d.year ++ "-" ++ padNum 2 d.month ++ "-" ++ padNum 2 d.day
                ++ " " ++ padNum 2 d.hour ++ ":" ++ padNum 2 d.minute
                ++ ":" ++ padNum 2 d.second
  | _ => ""

/-- The `Object.keys` view used for header collection: a plain object
contributes its field names, an array its decimal index strings, and
every other value no keys (the collection loop only reaches this under
its `typeof obj === 'object'` guard). -/
def jsOwnKeys : JVal → List String
  | JVal.obj fs => fs.map Prod.fst
  | JVal.arr xs => (List.range xs.length).map (fun i => toString i)
  | _ => []

/-- The guard `obj && typeof obj === 'object'`: true exactly for arrays
and plain objects (`null` is `typeof` object but falsy). -/
def isObjLike : JVal → Bool
  | JVal.obj _ => true
  | JVal.arr _ => true
  | _ => false

/-- Model of `Set.prototype.add` on an insertion-ordered set held as a
duplicate-free list: append the key only when it is new. -/
def addUnique (acc : List String) (k : String) : List String :=
  if k ∈ acc then acc else acc ++ [k]

/-- Header derivation (step 1 of `downloadJsonAsCsv`): fold every
record, adding the keys of each object-like record to the
insertion-ordered set. -/
def getHeaders (records : List JVal) : List String :=
  records.foldl
    (fun acc r => if isObjLike r then (jsOwnKeys r).foldl addUnique acc else acc)
    []

/-- Canonical decimal rendering test: the numeric index denoted by a
property name, when the name is a canonical base-10 numeral (as
JavaScript array index lookup requires). -/
def decIndex (s : String) : Option Nat :=
  match s.data with
  | [] => none
  | ['0'] => some 0
  | c :: rest =>
      if c.isDigit && c ≠ '0' && rest.all Char.isDigit then
        some (s.data.foldl (fun n ch => n * 10 + (ch.toNat - 48)) 0)
      else none

/-- Dynamic property access `row[header]` as used by row generation:
throws a `TypeError` on `null`, looks keys up on objects, exposes
`length` and index properties on arrays and strings, and yields
`undefined` on other primitives. -/
def jsGetE : JVal → String → Except String (Option JVal)
  | JVal.null, _ => Except.error "TypeError: Cannot read properties of null"
  | JVal.obj fs, k => Except.ok (lookupStr k fs)
  | JVal.arr xs, k =>
      Except.ok (if k = "length" then some (JVal.num xs.length)
        else (decIndex k).bind (fun i => xs.get? i))
  | JVal.str s, k =>
      Except.ok (if k = "length" then some (JVal.num s.length)
        else (decIndex k).bind (fun i => (s.data.get? i).map (fun c => JVal.str (String.mk [c]))))
  | JVal.num _, _ => Except.ok none
  | JVal.bool _, _ => Except.ok none

/-- One cell of row generation: look the header up in the record
(possibly throwing), apply date formatting exactly when the header is
literally `start_time_utc` or `end_time_utc`, then escape. -/
def cellFor (row : JVal) (h : String) : Except String String :=
  match jsGetE row h with
  | Except.error e => Except.error e
  | Except.ok v =>
      if h = "start_time_utc" ∨ h = "end_time_utc" then
        Except.ok (escapeCsvCell (some (JVal.str (formatDateForExcel v))))
      else
        Except.ok (escapeCsvCell v)

/-- One data row: the record's cell for each header in header order,
joined by commas. -/
def rowOfE (headers : List String) (row : JVal) : Except String String :=
  match mapME (cellFor row) headers with
  | Except.error e => Except.error e
  | Except.ok cells => Except.ok (String.intercalate "," cells)

/-- Outcome of one exporter invocation.  `noop` is the early return
after the input-validation diagnostic (no artifact, not even a partial
one); `saved` carries the byte-exact text content of the produced
artifact (the browser delivery mechanics are outside the content
contract); `fault` is a raised exception. -/
inductive ExportResult where
  | noop
  | saved (csv : String)
  | fault (msg : String)

/-- The TabularExporter, `downloadJsonAsCsv` (content contract): a
falsy, non-array or empty `records` argument aborts with no side
effect; otherwise the artifact is the UTF-8 BOM character followed by
the header row and the data rows joined by single newlines. -/
def downloadJsonAsCsv (jsonData : Option JVal) : ExportResult :=
  match jsonData with
  | some (JVal.arr rs) =>
      if rs.length = 0 then ExportResult.noop
      else
        let headers := getHeaders rs
        let headerRow := String.intercalate "," headers
        match mapME (rowOfE headers) rs with
        | Except.ok rows =>
            ExportResult.saved ("\uFEFF" ++ String.intercalate "\n" (headerRow :: rows))
        | Except.error e => ExportResult.fault e
  | _ => ExportResult.noop

/-! ### Claim-side auxiliary definitions -/

/-- The fixed canonical key set: the 15 rename targets of `KEY_MAP`
plus the two derived timestamp fields and the three derived count
fields. -/
def canonicalKeys : List String :=
  ["title", "details", "status", "location", "academic_year", "year",
   "module", "speciality", "cpp_speciality", "student_count",
   "duration_hours", "is_online", "is_cpp", "is_cancelled", "site",
   "start_time_utc", "end_time_utc", "teacher_count",
   "attendance_yes_count", "attendance_no_count"]

/-- Recognizer for a raised (exceptional) outcome. -/
def isErrorE (e : Except String JVal) : Bool :=
  match e with
  | Except.error _ => true
  | Except.ok _ => false

/-- Test for a plain key/value mapping (a genuine object, not an
array). -/
def isMapping : JVal → Bool
  | JVal.obj _ => true
  | _ => false

/-- Modelled from the spec: the header union as the specification words
it, namely "the union of the keys of all mapping-shaped records" in
first-seen order, where only genuine key/value mappings contribute keys.
Used to compare the specified header derivation with the implemented
one. -/
def specC4HeaderUnion (records : List JVal) : List String :=
  records.foldl
    (fun acc r => if isMapping r then (jsOwnKeys r).foldl addUnique acc else acc)
    []

/-- The five derived (non-rename) keys a cleaned event can acquire. -/
def derivedKeys : List String :=
  ["start_time_utc", "end_time_utc", "teacher_count",
   "attendance_yes_count", "attendance_no_count"]

/-! ### Helper lemmas -/

theorem mapME_ok_forall₂ {α β : Type} {f : α → Except String β} :
    ∀ {l : List α} {res : List β}, mapME f l = Except.ok res →
      List.Forall₂ (fun a b => f a = Except.ok b) l res := by
  intro l
  induction l with
  | nil =>
    intro res h
    simp only [mapME] at h
    cases h
    exact List.Forall₂.nil
  | cons a l ih =>
    intro res h
    simp only [mapME] at h
    cases hfa : f a with
    | error e => rw [hfa] at h; cases h
    | ok b =>
      rw [hfa] at h
      cases hml : mapME f l with
      | error e => rw [hml] at h; cases h
      | ok r =>
        rw [hml] at h
        cases h
        exact List.Forall₂.cons hfa (ih hml)

theorem forall₂_mem_right {α β : Type} {R : α → β → Prop} :
    ∀ {l : List α} {res : List β}, List.Forall₂ R l res →
      ∀ {b : β}, b ∈ res → ∃ a ∈ l, R a b := by
  intro l res h
  induction h with
  | nil => intro b hb; cases hb
  | cons hR _ ih =>
    intro b hb
    rcases List.mem_cons.mp hb with hb | hb
    · subst hb; exact ⟨_, List.mem_cons_self .., hR⟩
    · rcases ih hb with ⟨a, ha, hr⟩
      exact ⟨a, List.mem_cons_of_mem _ ha, hr⟩

theorem mapME_append {α β : Type} (f : α → Except String β) :
    ∀ (l₁ l₂ : List α), mapME f (l₁ ++ l₂) =
      match mapME f l₁ with
      | Except.ok r₁ =>
          (match mapME f l₂ with
           | Except.ok r₂ => Except.ok (r₁ ++ r₂)
           | Except.error e => Except.error e)
      | Except.error e => Except.error e := by
  intro l₁ l₂
  induction l₁ with
  | nil =>
    simp only [List.nil_append, mapME]
    cases mapME f l₂ <;> rfl
  | cons a l ih =>
    simp only [List.cons_append, mapME, List.append_eq]
    rw [ih]
    cases f a with
    | error e => rfl
    | ok b =>
      cases mapME f l with
      | error e => rfl
      | ok r₁ =>
        cases mapME f l₂ with
        | error e => rfl
        | ok r₂ => simp

theorem forall₂_mem_left {α β : Type} {R : α → β → Prop} :
    ∀ {l : List α} {res : List β}, List.Forall₂ R l res →
      ∀ {a : α}, a ∈ l → ∃ b ∈ res, R a b := by
  intro l res h
  induction h with
  | nil => intro a ha; cases ha
  | cons hR _ ih =>
    intro a ha
    rcases List.mem_cons.mp ha with ha | ha
    · subst ha; exact ⟨_, List.mem_cons_self .., hR⟩
    · rcases ih ha with ⟨b, hb, hr⟩
      exact ⟨b, List.mem_cons_of_mem _ hb, hr⟩

theorem mapME_not_ok_of_mem {α β : Type} {f : α → Except String β} {l : List α}
    {a : α} (ha : a ∈ l) (he : ∀ b, f a ≠ Except.ok b) :
    ∀ res, mapME f l ≠ Except.ok res := by
  intro res hok
  rcases forall₂_mem_left (mapME_ok_forall₂ hok) ha with ⟨b, _, hr⟩
  exact he b hr

theorem copyMapped_eq_filterMap (src : JVal) :
    copyMapped src = KEY_MAP.filterMap (copyEntry src) := by
  have haux : ∀ (l : List (String × String)) (acc : List (String × JVal)),
      l.foldl
        (fun acc p =>
          match copyEntry src p with
          | some fld => acc ++ [fld]
          | none => acc)
        acc = acc ++ l.filterMap (copyEntry src) := by
    intro l
    induction l with
    | nil => intro acc; simp
    | cons p l ih =>
      intro acc
      simp only [List.foldl_cons, List.filterMap_cons]
      cases copyEntry src p with
      | none => rw [ih]
      | some fld => rw [ih]; simp
  simpa [copyMapped] using haux KEY_MAP []

theorem copyEntry_key {src : JVal} {p : String × String} {fld : String × JVal}
    (h : copyEntry src p = some fld) : fld.1 = p.2 := by
  unfold copyEntry at h
  cases hpg : propGet src p.1 with
  | none => rw [hpg] at h; cases h
  | some v =>
    rw [hpg] at h
    cases hn : isNullJ v with
    | true => simp [hn] at h
    | false =>
      simp only [hn, Bool.false_eq_true, if_false, Option.some.injEq] at h
      rw [← h]

theorem copyEntry_of_get {src : JVal} {okk nk : String} {v : JVal}
    (hv : propGet src okk = some v) (hn : isNullJ v = false) :
    copyEntry src (okk, nk) = some (nk, transformVal nk v) := by
  unfold copyEntry
  rw [hv]
  simp [hn]

theorem keys_copyMapped {src : JVal} {k : String}
    (h : k ∈ (copyMapped src).map Prod.fst) : k ∈ KEY_MAP.map Prod.snd := by
  rw [copyMapped_eq_filterMap] at h
  rcases List.mem_map.mp h with ⟨fld, hfld, rfl⟩
  rcases List.mem_filterMap.mp hfld with ⟨p, hp, hcp⟩
  rw [copyEntry_key hcp]
  exact List.mem_map.mpr ⟨p, hp, rfl⟩

theorem lookupStr_append_some {k : String} {l₁ : List (String × JVal)} {v : JVal}
    (l₂ : List (String × JVal)) (h : lookupStr k l₁ = some v) :
    lookupStr k (l₁ ++ l₂) = some v := by
  induction l₁ with
  | nil => cases h
  | cons p l ih =>
    simp only [lookupStr, List.cons_append] at h ⊢
    by_cases hp : p.1 = k
    · rw [if_pos hp] at h ⊢; exact h
    · rw [if_neg hp] at h ⊢; exact ih h

theorem lookupStr_append_none {k : String} {l₁ : List (String × JVal)}
    (l₂ : List (String × JVal)) (h : lookupStr k l₁ = none) :
    lookupStr k (l₁ ++ l₂) = lookupStr k l₂ := by
  induction l₁ with
  | nil => rfl
  | cons p l ih =>
    simp only [lookupStr, List.cons_append] at h ⊢
    by_cases hp : p.1 = k
    · rw [if_pos hp] at h; cases h
    · rw [if_neg hp] at h ⊢; exact ih h

theorem lookupStr_eq_none_of_not_mem {k : String} {l : List (String × JVal)}
    (h : k ∉ l.map Prod.fst) : lookupStr k l = none := by
  induction l with
  | nil => rfl
  | cons p l ih =>
    simp only [List.map_cons, List.mem_cons] at h
    push_neg at h
    simp only [lookupStr]
    rw [if_neg (fun hh => h.1 hh.symm)]
    exact ih h.2

theorem maybeIsoE_ok_keys {k : String} {v : Option JVal} {l : List (String × JVal)}
    (h : maybeIsoE k v = Except.ok l) : ∀ k' ∈ l.map Prod.fst, k' = k := by
  intro k' hk'
  unfold maybeIsoE at h
  cases v with
  | none => cases h; simp at hk'
  | some w =>
    cases htw : truthy w with
    | false => simp [htw] at h; rw [h] at hk'; simp at hk'
    | true =>
      simp only [htw, if_true] at h
      cases hiso : toISOStringE w with
      | error e1 => rw [hiso] at h; cases h
      | ok s => rw [hiso] at h; cases h; simpa using hk'

theorem countField_keys (k : String) (v : Option JVal) :
    ∀ k' ∈ (countField k v).map Prod.fst, k' = k := by
  intro k' hk'
  cases v with
  | none => simp [countField] at hk'
  | some w =>
    cases w with
    | arr xs => simp [countField] at hk'; exact hk'
    | str s => simp [countField] at hk'
    | num n => simp [countField] at hk'
    | bool b => simp [countField] at hk'
    | null => simp [countField] at hk'
    | obj fs => simp [countField] at hk'

theorem processDocE_ok_cases {d e : JVal} (h : processDocE d = Except.ok e) :
    e = JVal.null ∨
      ∃ src extras, propGet d "_source" = some src ∧ truthy d = true ∧
        truthy src = true ∧ e = JVal.obj (copyMapped src ++ extras) ∧
        ∀ k ∈ extras.map Prod.fst, k ∈ derivedKeys := by
  unfold processDocE at h
  cases htd : truthy d with
  | false => simp [htd] at h; exact Or.inl h.symm
  | true =>
    simp only [htd, if_true] at h
    cases hsrc : propGet d "_source" with
    | none => rw [hsrc] at h; cases h; exact Or.inl rfl
    | some src =>
      rw [hsrc] at h
      cases hts : truthy src with
      | false => simp [hts] at h; exact Or.inl h.symm
      | true =>
        simp only [hts, if_true] at h
        cases h1 : maybeIsoE "start_time_utc" (propGet src "strat_date_and_time_date") with
        | error e1 => rw [h1] at h; cases h
        | ok tf1 =>
          rw [h1] at h
          cases h2 : maybeIsoE "end_time_utc" (propGet src "end_date_and_time_date") with
          | error e2 => rw [h2] at h; cases h
          | ok tf2 =>
            rw [h2] at h
            cases h
            refine Or.inr ⟨src,
              tf1 ++ (tf2
                ++ (countField "teacher_count" (propGet src "teachers_list_user")
                ++ (countField "attendance_yes_count"
                      (propGet src "attended_yes_list_custom_student_info")
                ++ countField "attendance_no_count"
                      (propGet src "attended_no_list_custom_student_info")))),
              rfl, rfl, hts, by simp, ?_⟩
            intro k hk
            simp only [List.map_append, List.mem_append] at hk
            rcases hk with hk | hk | hk | hk | hk
            · rw [maybeIsoE_ok_keys h1 k hk]; simp [derivedKeys]
            · rw [maybeIsoE_ok_keys h2 k hk]; simp [derivedKeys]
            · rw [countField_keys _ _ k hk]; simp [derivedKeys]
            · rw [countField_keys _ _ k hk]; simp [derivedKeys]
            · rw [countField_keys _ _ k hk]; simp [derivedKeys]

theorem cleanJsonForLLM_ok_events {raw : Option JVal} {out : JVal}
    (h : cleanJsonForLLM raw = Except.ok out) :
    ∃ evs, out = JVal.obj [("events", JVal.arr evs)] ∧
      ∀ e ∈ evs, keepEvent e = true ∧ ∃ d, processDocE d = Except.ok e := by
  unfold cleanJsonForLLM at h
  cases raw with
  | none => cases h; exact ⟨[], rfl, by simp⟩
  | some v =>
    cases htv : truthy v with
    | false =>
      simp [htv] at h
      exact ⟨[], by rw [← h]; rfl, by simp⟩
    | true =>
      simp only [htv, if_true] at h
      split at h
      next docs =>
        split at h
        next e0 hm => cases h
        next mapped hm =>
          cases h
          refine ⟨mapped.filter keepEvent, rfl, ?_⟩
          intro e he
          have hf := List.mem_filter.mp he
          refine ⟨hf.2, ?_⟩
          rcases forall₂_mem_right (mapME_ok_forall₂ hm) hf.1 with ⟨d, _, hd⟩
          exact ⟨d, hd⟩
      next x hx => cases h; exact ⟨[], rfl, by simp⟩

theorem lookupStr_copyMapped_split {src : JVal} {okk nk : String} {v : JVal}
    (pre post : List (String × String))
    (hkm : KEY_MAP = pre ++ (okk, nk) :: post)
    (hpre : ∀ q ∈ pre, q.2 ≠ nk)
    (hv : propGet src okk = some v) (hn : isNullJ v = false) :
    lookupStr nk (copyMapped src) = some (transformVal nk v) := by
  rw [copyMapped_eq_filterMap, hkm, List.filterMap_append]
  have hnone : lookupStr nk (pre.filterMap (copyEntry src)) = none := by
    apply lookupStr_eq_none_of_not_mem
    intro hmem
    rcases List.mem_map.mp hmem with ⟨fld, hfld, hfst⟩
    rcases List.mem_filterMap.mp hfld with ⟨q, hq, hcq⟩
    refine hpre q hq ?_
    rw [← copyEntry_key hcq]
    exact hfst
  rw [lookupStr_append_none _ hnone]
  simp only [List.filterMap_cons, copyEntry_of_get hv hn]
  simp [lookupStr]

theorem mem_addUnique {acc : List String} {k k' : String} :
    k ∈ addUnique acc k' ↔ k ∈ acc ∨ k = k' := by
  unfold addUnique
  by_cases hmem : k' ∈ acc
  · rw [if_pos hmem]
    constructor
    · exact Or.inl
    · rintro (h | rfl)
      · exact h
      · exact hmem
  · rw [if_neg hmem]; simp

theorem mem_foldl_addUnique {l : List String} :
    ∀ {acc k}, k ∈ l.foldl addUnique acc ↔ k ∈ acc ∨ k ∈ l := by
  induction l with
  | nil => intro acc k; simp
  | cons a l ih =>
    intro acc k
    simp only [List.foldl_cons]
    rw [ih, mem_addUnique]
    simp only [List.mem_cons]
    tauto

theorem nodup_addUnique {acc : List String} (h : acc.Nodup) (k : String) :
    (addUnique acc k).Nodup := by
  unfold addUnique
  by_cases hmem : k ∈ acc
  · rw [if_pos hmem]; exact h
  · rw [if_neg hmem]
    refine List.Nodup.append h (List.nodup_singleton k) ?_
    intro a ha hb
    simp at hb
    subst hb
    exact hmem ha

theorem nodup_foldl_addUnique {l : List String} :
    ∀ {acc : List String}, acc.Nodup → (l.foldl addUnique acc).Nodup := by
  induction l with
  | nil => intro acc h; exact h
  | cons a l ih => intro acc h; exact ih (nodup_addUnique h a)

theorem mem_getHeaders {rs : List JVal} {k : String} :
    k ∈ getHeaders rs ↔ ∃ r ∈ rs, isObjLike r = true ∧ k ∈ jsOwnKeys r := by
  have haux : ∀ (l : List JVal) (acc : List String) (k : String),
      k ∈ l.foldl
        (fun acc r => if isObjLike r then (jsOwnKeys r).foldl addUnique acc else acc)
        acc
        ↔ k ∈ acc ∨ ∃ r ∈ l, isObjLike r = true ∧ k ∈ jsOwnKeys r := by
    intro l
    induction l with
    | nil => intro acc k; simp
    | cons r l ih =>
      intro acc k
      simp only [List.foldl_cons]
      cases hro : isObjLike r with
      | true =>
        simp only [hro, if_true]
        rw [ih, mem_foldl_addUnique]
        simp only [List.mem_cons]
        constructor
        · rintro ((h | h) | ⟨r', hr', hro', hk⟩)
          · exact Or.inl h
          · exact Or.inr ⟨r, Or.inl rfl, hro, h⟩
          · exact Or.inr ⟨r', Or.inr hr', hro', hk⟩
        · rintro (h | ⟨r', hr' | hr', hro', hk⟩)
          · exact Or.inl (Or.inl h)
          · subst hr'; exact Or.inl (Or.inr hk)
          · exact Or.inr ⟨r', hr', hro', hk⟩
      | false =>
        simp only [hro, Bool.false_eq_true, if_false]
        rw [ih]
        simp only [List.mem_cons]
        constructor
        · rintro (h | ⟨r', hr', hro', hk⟩)
          · exact Or.inl h
          · exact Or.inr ⟨r', Or.inr hr', hro', hk⟩
        · rintro (h | ⟨r', hr' | hr', hro', hk⟩)
          · exact Or.inl h
          · subst hr'; rw [hro] at hro'; cases hro'
          · exact Or.inr ⟨r', hr', hro', hk⟩
  exact (haux rs [] k).trans (by simp)

theorem nodup_getHeaders (rs : List JVal) : (getHeaders rs).Nodup := by
  have haux : ∀ (l : List JVal) (acc : List String), acc.Nodup →
      (l.foldl
        (fun acc r => if isObjLike r then (jsOwnKeys r).foldl addUnique acc else acc)
        acc).Nodup := by
    intro l
    induction l with
    | nil => intro acc h; exact h
    | cons r l ih =>
      intro acc h
      simp only [List.foldl_cons]
      cases hro : isObjLike r with
      | true => simp only [hro, if_true]; exact ih _ (nodup_foldl_addUnique h)
      | false => simp only [hro, Bool.false_eq_true, if_false]; exact ih _ h
  exact haux rs [] List.nodup_nil

theorem toISOStringE_err {v : JVal} (h : jsDateOf v = none) :
    toISOStringE v = Except.error "RangeError: Invalid time value" := by
  unfold toISOStringE
  rw [h]

theorem maybeIsoE_err {k : String} {v : JVal} (ht : truthy v = true)
    (h : jsDateOf v = none) :
    maybeIsoE k (some v) = Except.error "RangeError: Invalid time value" := by
  unfold maybeIsoE
  simp [ht, toISOStringE_err h]

theorem processDocE_skip {d : JVal}
    (h : truthy d = false ∨ truthyU (propGet d "_source") = false) :
    processDocE d = Except.ok JVal.null := by
  unfold processDocE
  cases htd : truthy d with
  | false => simp
  | true =>
    simp only [if_true]
    rcases h with h | h
    · rw [htd] at h; cases h
    · cases hps : propGet d "_source" with
      | none => simp
      | some src =>
        rw [hps] at h
        simp only [truthyU] at h
        simp [h]

theorem cleanJsonForLLM_mkBatch (docs : List JVal) :
    cleanJsonForLLM (mkBatch docs) =
      match mapME processDocE docs with
      | Except.ok mapped =>
          Except.ok (JVal.obj [("events", JVal.arr (mapped.filter keepEvent))])
      | Except.error e => Except.error e := by
  cases hm : mapME processDocE docs <;>
    simp [cleanJsonForLLM, mkBatch, truthy, propGet, lookupStr, hm]

theorem isArchivedStatus_false_ne {o : Option JVal}
    (h : isArchivedStatus o = false) : o ≠ some (JVal.str "Archived") := by
  intro he
  subst he
  simp [isArchivedStatus] at h

theorem isObjLike_of_isMapping {r : JVal} (h : isMapping r = true) :
    isObjLike r = true := by
  cases r <;> simp_all [isMapping, isObjLike]

theorem km_targets_canonical : ∀ k ∈ KEY_MAP.map Prod.snd, k ∈ canonicalKeys := by
  decide

theorem derived_canonical : ∀ k ∈ derivedKeys, k ∈ canonicalKeys := by
  decide

theorem getHeaders_eq_foldl_join {rs : List JVal}
    (hall : ∀ r ∈ rs, isObjLike r = true) :
    getHeaders rs = ((rs.map jsOwnKeys).flatten).foldl addUnique [] := by
  have haux : ∀ (l : List JVal) (acc : List String),
      (∀ r ∈ l, isObjLike r = true) →
      l.foldl
        (fun acc r => if isObjLike r then (jsOwnKeys r).foldl addUnique acc else acc)
        acc = ((l.map jsOwnKeys).flatten).foldl addUnique acc := by
    intro l
    induction l with
    | nil => intro acc _; simp
    | cons r l ih =>
      intro acc hall
      simp only [List.foldl_cons, List.map_cons, List.flatten_cons, List.foldl_append]
      rw [hall r (List.mem_cons_self ..)]
      simp only [if_true]
      exact ih _ (fun r' hr' => hall r' (List.mem_cons_of_mem _ hr'))
  exact haux rs [] hall

theorem maybeIsoE_error_msg {k : String} {v : Option JVal} {e : String}
    (h : maybeIsoE k v = Except.error e) : e = "RangeError: Invalid time value" := by
  unfold maybeIsoE at h
  cases v with
  | none => cases h
  | some w =>
    cases htw : truthy w with
    | false => simp [htw] at h
    | true =>
      simp only [htw, if_true] at h
      cases hiso : toISOStringE w with
      | ok s => rw [hiso] at h; cases h
      | error e2 =>
        rw [hiso] at h
        cases h
        unfold toISOStringE at hiso
        cases hjd : jsDateOf w with
        | some jd => rw [hjd] at hiso; cases hiso
        | none => rw [hjd] at hiso; cases hiso; rfl

/-! ### Claim theorems -/

/-- C1 (counterexample).  The claim states that a batch containing a
document with a present but unparseable `strat_date_and_time_date`
value is not aborted, the Normalizer returning normally with a sentinel
"invalid" value in `start_time_utc`.  On this concrete batch the code
instead raises: `new Date("bad-date").toISOString()` throws
`RangeError: Invalid time value`, so `cleanJsonForLLM` produces no
result object at all. -/
theorem c1_counterexample_unparseable_date_raises :
    cleanJsonForLLM (mkBatch [JVal.obj [("_source", JVal.obj
        [("event_title_text", JVal.str "T"),
         ("strat_date_and_time_date", JVal.str "bad-date")])]])
      = Except.error "RangeError: Invalid time value" := rfl

/-- C1 (amended).  For every batch containing a reached document whose
`_source` carries a truthy but unparseable `strat_date_and_time_date`
or `end_date_and_time_date` value, the Normalizer aborts: processing
the document raises `RangeError: Invalid time value` (from the start
conversion itself, or — when the start conversion is skipped or
succeeds — from the end conversion) and the whole batch call returns no
normal result (no sentinel value is produced). -/
theorem c1_amended_unparseable_date_aborts_batch :
    ∀ (docs : List JVal) (d src v : JVal),
      d ∈ docs → propGet d "_source" = some src →
      truthy d = true → truthy src = true →
      (propGet src "strat_date_and_time_date" = some v ∨
        propGet src "end_date_and_time_date" = some v) →
      truthy v = true → jsDateOf v = none →
      processDocE d = Except.error "RangeError: Invalid time value" ∧
      isErrorE (cleanJsonForLLM (mkBatch docs)) = true := by
  intro docs d src v hmem hsrc htd hts hv htv hbad
  have hproc : processDocE d = Except.error "RangeError: Invalid time value" := by
    unfold processDocE
    rw [htd]
    simp only [if_true]
    rw [hsrc]
    simp only [hts, if_true]
    rcases hv with hv | hv
    · rw [hv, maybeIsoE_err htv hbad]
    · cases h1 : maybeIsoE "start_time_utc" (propGet src "strat_date_and_time_date") with
      | error e1 =>
        rw [maybeIsoE_error_msg h1]
      | ok tf1 =>
        rw [hv, maybeIsoE_err htv hbad]
  refine ⟨hproc, ?_⟩
  rw [cleanJsonForLLM_mkBatch]
  cases hm : mapME processDocE docs with
  | error e => simp [isErrorE]
  | ok mapped =>
    exact absurd hm
      (mapME_not_ok_of_mem hmem (fun b hb => by rw [hproc] at hb; cases hb) mapped)

/-- C1 (witness for the amended theorem), applying it to a one-document
batch whose start date is the unparseable string `bad-date`, and to one
whose parseable start date is followed by an unparseable end date. -/
theorem c1_amended_witness :
    isErrorE (cleanJsonForLLM (mkBatch [JVal.obj [("_source", JVal.obj
        [("event_title_text", JVal.str "T"),
         ("strat_date_and_time_date", JVal.str "bad-date")])]])) = true ∧
    isErrorE (cleanJsonForLLM (mkBatch [JVal.obj [("_source", JVal.obj
        [("event_title_text", JVal.str "T"),
         ("strat_date_and_time_date", JVal.str "2024-01-15T10:00:00.000Z"),
         ("end_date_and_time_date", JVal.str "bad-date")])]])) = true :=
  ⟨(c1_amended_unparseable_date_aborts_batch
      [JVal.obj [("_source", JVal.obj
          [("event_title_text", JVal.str "T"),
           ("strat_date_and_time_date", JVal.str "bad-date")])]]
      _ _ (JVal.str "bad-date")
      (List.mem_cons_self ..) rfl rfl rfl (Or.inl rfl) rfl rfl).2,
   (c1_amended_unparseable_date_aborts_batch
      [JVal.obj [("_source", JVal.obj
          [("event_title_text", JVal.str "T"),
           ("strat_date_and_time_date", JVal.str "2024-01-15T10:00:00.000Z"),
           ("end_date_and_time_date", JVal.str "bad-date")])]]
      _ _ (JVal.str "bad-date")
      (List.mem_cons_self ..) rfl rfl rfl (Or.inr rfl) rfl rfl).2⟩

/-- C2.  Every event in a normal Normalizer result is truthy (non-null),
has a `status` different from the literal string `"Archived"`, and has a
truthy (in particular, for strings, non-empty) `title`; moreover a
cleaned record built from a document whose `_source.event_status_text`
is `"Archived"` always fails the retention predicate, so no record for
such a document appears in the output. -/
theorem c2_archived_events_filtered :
    (∀ (raw : Option JVal) (out : JVal), cleanJsonForLLM raw = Except.ok out →
      ∃ evs, out = JVal.obj [("events", JVal.arr evs)] ∧
        ∀ e ∈ evs, truthy e = true ∧
          propGet e "status" ≠ some (JVal.str "Archived") ∧
          truthyU (propGet e "title") = true) ∧
    (∀ (d src e : JVal), propGet d "_source" = some src →
      propGet src "event_status_text" = some (JVal.str "Archived") →
      processDocE d = Except.ok e → keepEvent e = false) := by
  constructor
  · intro raw out hok
    rcases cleanJsonForLLM_ok_events hok with ⟨evs, hout, hev⟩
    refine ⟨evs, hout, ?_⟩
    intro e he
    have hk := (hev e he).1
    simp only [keepEvent, Bool.and_eq_true, Bool.not_eq_true'] at hk
    exact ⟨hk.1.1, isArchivedStatus_false_ne hk.1.2, hk.2⟩
  · intro d src e hsrc hstat hok
    rcases processDocE_ok_cases hok with rfl | ⟨src', extras, hsrc', _, _, rfl, hkeys⟩
    · rfl
    · rw [hsrc] at hsrc'
      cases hsrc'
      have hlook : lookupStr "status" (copyMapped src) = some (JVal.str "Archived") := by
        have := lookupStr_copyMapped_split
          [("event_title_text", "title"), ("event_details_text", "details")]
          [("event_location_text", "location"),
           ("academic_year_option_academic_years", "academic_year"),
           ("year_option_year", "year"),
           ("module_option_modules", "module"),
           ("speciality_option_speciality", "speciality"),
           ("cpp_module_option_speciality", "cpp_speciality"),
           ("student_count_number", "student_count"),
           ("event_duration_hrs_number", "duration_hours"),
           ("online_boolean", "is_online"),
           ("cpp_boolean", "is_cpp"),
           ("event_canceled_boolean", "is_cancelled"),
           ("site_option_sites", "site")]
          rfl (by decide) hstat rfl
        simpa [transformVal] using this
      have hobj : propGet (JVal.obj (copyMapped src ++ extras)) "status"
          = some (JVal.str "Archived") := by
        simp only [propGet]
        exact lookupStr_append_some extras hlook
      simp [keepEvent, hobj, isArchivedStatus]

/-- C2 (witness): the document with Archived status yields a record the
retention predicate rejects. -/
theorem c2_witness :
    keepEvent (JVal.obj [("title", JVal.str "A"), ("status", JVal.str "Archived")])
      = false :=
  c2_archived_events_filtered.2
    (JVal.obj [("_source", JVal.obj
      [("event_title_text", JVal.str "A"), ("event_status_text", JVal.str "Archived")])])
    (JVal.obj
      [("event_title_text", JVal.str "A"), ("event_status_text", JVal.str "Archived")])
    _ rfl rfl rfl

/-- C3.  A falsy (absent) document, or one whose `_source` is absent or
falsy, is mapped to the `null` skip marker without raising, and deleting
such a document from a batch does not change the Normalizer's outcome:
all remaining documents are processed exactly as before. -/
theorem c3_missing_source_skipped :
    ∀ (d : JVal) (pre post : List JVal),
      (truthy d = false ∨ truthyU (propGet d "_source") = false) →
      processDocE d = Except.ok JVal.null ∧
      cleanJsonForLLM (mkBatch (pre ++ d :: post))
        = cleanJsonForLLM (mkBatch (pre ++ post)) := by
  intro d pre post h
  have hd := processDocE_skip h
  refine ⟨hd, ?_⟩
  rw [cleanJsonForLLM_mkBatch, cleanJsonForLLM_mkBatch,
    mapME_append processDocE pre (d :: post), mapME_append processDocE pre post]
  cases hp : mapME processDocE pre with
  | error e => rfl
  | ok rpre =>
    simp only [mapME, hd]
    cases hq : mapME processDocE post with
    | error e => rfl
    | ok rpost =>
      have hkn : keepEvent JVal.null = false := rfl
      simp [List.filter_append, hkn]

/-- C3 (witness): a `null` document in front of a well-formed document
is skipped and the rest of the batch is processed as if it were not
there. -/
theorem c3_witness :
    processDocE JVal.null = Except.ok JVal.null ∧
    cleanJsonForLLM (mkBatch [JVal.null,
        JVal.obj [("_source", JVal.obj [("event_title_text", JVal.str "T")])]])
      = cleanJsonForLLM (mkBatch
        [JVal.obj [("_source", JVal.obj [("event_title_text", JVal.str "T")])]]) :=
  c3_missing_source_skipped JVal.null []
    [JVal.obj [("_source", JVal.obj [("event_title_text", JVal.str "T")])]]
    (Or.inl rfl)

/-- C8.  The round trip of the specification: the batch with one document
carrying a title and the year `2023_2024` normalizes to exactly
`{events: [{title: "T", year: "20232024"}]}`; and in general whenever
the source carries a string under `year_option_year`, the cleaned
record's `year` is that string with every underscore removed. -/
theorem c8_year_underscores_stripped :
    cleanJsonForLLM (mkBatch [JVal.obj [("_source", JVal.obj
        [("event_title_text", JVal.str "T"),
         ("year_option_year", JVal.str "2023_2024")])]])
      = Except.ok (JVal.obj [("events", JVal.arr
          [JVal.obj [("title", JVal.str "T"), ("year", JVal.str "20232024")]])]) ∧
    ∀ (src : JVal) (s : String), propGet src "year_option_year" = some (JVal.str s) →
      lookupStr "year" (copyMapped src) = some (JVal.str (stripUnderscores s)) := by
  constructor
  · rfl
  · intro src s hv
    have h := lookupStr_copyMapped_split
      [("event_title_text", "title"), ("event_details_text", "details"),
       ("event_status_text", "status"), ("event_location_text", "location"),
       ("academic_year_option_academic_years", "academic_year")]
      [("module_option_modules", "module"),
       ("speciality_option_speciality", "speciality"),
       ("cpp_module_option_speciality", "cpp_speciality"),
       ("student_count_number", "student_count"),
       ("event_duration_hrs_number", "duration_hours"),
       ("online_boolean", "is_online"),
       ("cpp_boolean", "is_cpp"),
       ("event_canceled_boolean", "is_cancelled"),
       ("site_option_sites", "site")]
      rfl (by decide) hv rfl
    simpa [transformVal] using h

/-- C8 (witness): the general underscore-stripping statement applied to
the concrete source of the round-trip example. -/
theorem c8_witness :
    lookupStr "year"
        (copyMapped (JVal.obj [("year_option_year", JVal.str "2023_2024")]))
      = some (JVal.str "20232024") :=
  c8_year_underscores_stripped.2
    (JVal.obj [("year_option_year", JVal.str "2023_2024")]) "2023_2024" rfl

/-- C10.  Every event of a normal Normalizer result is a plain object
all of whose keys belong to the fixed 20-name canonical set (the 15
rename targets plus the two timestamp fields and the three count
fields); no other key ever appears. -/
theorem c10_canonical_keys_only :
    ∀ (raw : Option JVal) (out : JVal), cleanJsonForLLM raw = Except.ok out →
      ∃ evs, out = JVal.obj [("events", JVal.arr evs)] ∧
        ∀ e ∈ evs, isMapping e = true ∧
          ∀ k ∈ jsOwnKeys e, k ∈ canonicalKeys := by
  intro raw out hok
  rcases cleanJsonForLLM_ok_events hok with ⟨evs, hout, hev⟩
  refine ⟨evs, hout, ?_⟩
  intro e he
  rcases hev e he with ⟨hk, d, hd⟩
  rcases processDocE_ok_cases hd with rfl | ⟨src, extras, _, _, _, rfl, hkeys⟩
  · cases hk
  · refine ⟨rfl, ?_⟩
    intro k hkm
    simp only [jsOwnKeys, List.map_append, List.mem_append] at hkm
    rcases hkm with hkm | hkm
    · exact km_targets_canonical k (keys_copyMapped hkm)
    · exact derived_canonical k (hkeys k hkm)

/-- C10 (witness): a key taken from a concretely normalized event is in
the canonical set. -/
theorem c10_witness : ("title" : String) ∈ canonicalKeys := by
  have h := c10_canonical_keys_only
    (mkBatch [JVal.obj [("_source", JVal.obj [("event_title_text", JVal.str "T")])]])
    (JVal.obj [("events", JVal.arr [JVal.obj [("title", JVal.str "T")]])]) rfl
  rcases h with ⟨evs, heq, hev⟩
  cases heq
  exact (hev (JVal.obj [("title", JVal.str "T")]) (List.mem_cons_self ..)).2
    "title" (List.mem_cons_self ..)

/-- C4 (counterexample).  The claim makes the header row exactly the
union of the keys of the mapping-shaped records, so on
`[{a: 1}, ["x"]]` it predicts the single header `a` (an array is not a
genuine key/value mapping and the specification says non-mapping
records contribute no keys).  The code's `typeof obj === 'object'`
guard also admits arrays, whose `Object.keys` are their decimal index
strings, so the produced header row is `a,0`. -/
theorem c4_counterexample_array_record :
    getHeaders [JVal.obj [("a", JVal.num 1)], JVal.arr [JVal.str "x"]]
        = ["a", "0"] ∧
    specC4HeaderUnion [JVal.obj [("a", JVal.num 1)], JVal.arr [JVal.str "x"]]
        = ["a"] ∧
    (["a", "0"] : List String) ≠ ["a"] := ⟨rfl, rfl, by decide⟩

/-- C4 (amended).  For record lists consisting of plain mappings, the
derived header list is first-seen-order deduplication of the
concatenated key streams, contains a key exactly when some record has
it, lists every header once, and a header absent from a record renders
as the empty cell; a non-mapping array record, however, also passes the
object-likeness guard and contributes its decimal index strings to the
header union. -/
theorem c4_amended_header_union :
    ∀ rs : List JVal, (∀ r ∈ rs, isMapping r = true) →
      getHeaders rs = ((rs.map jsOwnKeys).flatten).foldl addUnique [] ∧
      (∀ k, k ∈ getHeaders rs ↔ ∃ r ∈ rs, k ∈ jsOwnKeys r) ∧
      (getHeaders rs).Nodup ∧
      (∀ r ∈ rs, ∀ h : String, h ∉ jsOwnKeys r → cellFor r h = Except.ok "") := by
  intro rs hall
  refine ⟨getHeaders_eq_foldl_join (fun r hr => isObjLike_of_isMapping (hall r hr)),
    ?_, nodup_getHeaders rs, ?_⟩
  · intro k
    rw [mem_getHeaders]
    constructor
    · rintro ⟨r, hr, _, hk⟩
      exact ⟨r, hr, hk⟩
    · rintro ⟨r, hr, hk⟩
      exact ⟨r, hr, isObjLike_of_isMapping (hall r hr), hk⟩
  · intro r hr h hnk
    have hm := hall r hr
    cases r with
    | obj fs =>
      unfold cellFor
      have hget : jsGetE (JVal.obj fs) h = Except.ok (lookupStr h fs) := rfl
      rw [hget, lookupStr_eq_none_of_not_mem (by simpa [jsOwnKeys] using hnk)]
      show (if h = "start_time_utc" ∨ h = "end_time_utc" then
          Except.ok (escapeCsvCell (some (JVal.str (formatDateForExcel none))))
        else Except.ok (escapeCsvCell none)) = Except.ok ""
      by_cases hdate : h = "start_time_utc" ∨ h = "end_time_utc"
      · rw [if_pos hdate]; rfl
      · rw [if_neg hdate]; rfl
    | str s => simp [isMapping] at hm
    | num n => simp [isMapping] at hm
    | bool b => simp [isMapping] at hm
    | null => simp [isMapping] at hm
    | arr xs => simp [isMapping] at hm

/-- C4 (witness): the specification's own example, with the amended
theorem applied to it.  Headers come out as `a,b,c` in first-seen
order, the two data rows render missing keys as empty cells, and the
headers are pairwise distinct. -/
theorem c4_amended_witness :
    downloadJsonAsCsv (some (JVal.arr
        [JVal.obj [("a", JVal.num 1), ("b", JVal.num 2)],
         JVal.obj [("b", JVal.num 3), ("c", JVal.num 4)]]))
      = ExportResult.saved "\uFEFFa,b,c\n1,2,\n,3,4" ∧
    getHeaders [JVal.obj [("a", JVal.num 1), ("b", JVal.num 2)],
        JVal.obj [("b", JVal.num 3), ("c", JVal.num 4)]] = ["a", "b", "c"] ∧
    (getHeaders [JVal.obj [("a", JVal.num 1), ("b", JVal.num 2)],
        JVal.obj [("b", JVal.num 3), ("c", JVal.num 4)]]).Nodup ∧
    cellFor (JVal.obj [("b", JVal.num 3), ("c", JVal.num 4)]) "a"
      = Except.ok "" := by
  have hmaps : ∀ r ∈ [JVal.obj [("a", JVal.num 1), ("b", JVal.num 2)],
      JVal.obj [("b", JVal.num 3), ("c", JVal.num 4)]], isMapping r = true := by
    intro r hr
    rcases List.mem_cons.mp hr with rfl | hr
    · rfl
    · rcases List.mem_cons.mp hr with rfl | hr
      · rfl
      · cases hr
  have h := c4_amended_header_union _ hmaps
  refine ⟨rfl, rfl, h.2.2.1, ?_⟩
  exact h.2.2.2 (JVal.obj [("b", JVal.num 3), ("c", JVal.num 4)])
    (List.mem_cons_of_mem _ (List.mem_cons_self ..)) "a" (by decide)

/-- C5.  Cell escaping: `null`/`undefined` become the empty cell; a
string cell is wrapped in double-quotes with every internal
double-quote doubled exactly when it contains a comma, a double-quote
or a newline, and is otherwise passed through unchanged; the
specification's example cell renders accordingly. -/
theorem c5_escape_csv_cell :
    escapeCsvCell none = "" ∧
    escapeCsvCell (some JVal.null) = "" ∧
    (∀ s : String, hasCsvSpecial s = false →
      escapeCsvCell (some (JVal.str s)) = s) ∧
    (∀ s : String, hasCsvSpecial s = true →
      escapeCsvCell (some (JVal.str s)) = "\"" ++ doubleQuotesCh s ++ "\"") ∧
    escapeCsvCell (some (JVal.str "He said, \"hi\""))
      = "\"He said, \"\"hi\"\"\"" := by
  refine ⟨rfl, rfl, ?_, ?_, rfl⟩
  · intro s h
    unfold escapeCsvCell
    simp [jsToStr, h]
  · intro s h
    unfold escapeCsvCell
    simp [jsToStr, h]

/-- C5 (witness): the escaping characterization applied at a plain and
at a comma-bearing string. -/
theorem c5_witness :
    hasCsvSpecial "plain" = false ∧
    escapeCsvCell (some (JVal.str "plain")) = "plain" ∧
    hasCsvSpecial "a,b" = true ∧
    escapeCsvCell (some (JVal.str "a,b")) = "\"" ++ doubleQuotesCh "a,b" ++ "\"" :=
  ⟨rfl, c5_escape_csv_cell.2.2.1 "plain" rfl, rfl,
    c5_escape_csv_cell.2.2.2.1 "a,b" rfl⟩

/-- C6.  Date formatting: a string cell in a date column is returned
unchanged when it fails to parse or parses to a UTC year before 1980,
and otherwise renders as zero-padded `YYYY-MM-DD HH:MM:SS` from the
parsed UTC calendar fields; row generation applies this formatting to
exactly the columns literally named `start_time_utc` and
`end_time_utc`; the specification's two examples evaluate as stated. -/
theorem c6_date_column_formatting :
    (∀ s : String, formatDateForExcel (some (JVal.str s)) =
      match parseDate s with
      | none => s
      | some d =>
          if d.year < 1980 then s
          else toString d.year ++ "-" ++ padNum 2 d.month ++ "-" ++ padNum 2 d.day
            ++ " " ++ padNum 2 d.hour ++ ":" ++ padNum 2 d.minute
            ++ ":" ++ padNum 2 d.second) ∧
    (∀ (row : JVal) (h : String) (v : Option JVal), jsGetE row h = Except.ok v →
      cellFor row h =
        if h = "start_time_utc" ∨ h = "end_time_utc" then
          Except.ok (escapeCsvCell (some (JVal.str (formatDateForExcel v))))
        else Except.ok (escapeCsvCell v)) ∧
    formatDateForExcel (some (JVal.str "2024-01-15T10:00:00.000Z"))
      = "2024-01-15 10:00:00" ∧
    formatDateForExcel (some (JVal.str "bad-date")) = "bad-date" := by
  refine ⟨?_, ?_, rfl, rfl⟩
  · intro s
    show (if s = "" then ""
      else
        match parseDate s with
        | none => s
        | some d =>
            if d.year < 1980 then s
            else toString d.year ++ "-" ++ padNum 2 d.month ++ "-" ++ padNum 2 d.day
              ++ " " ++ padNum 2 d.hour ++ ":" ++ padNum 2 d.minute
              ++ ":" ++ padNum 2 d.second) = _
    by_cases hs : s = ""
    · subst hs; rfl
    · rw [if_neg hs]
  · intro row h v hv
    unfold cellFor
    rw [hv]

/-- C6 (witness): the row-generation characterization applied at a
concrete record, both on a date column and on an ordinary column. -/
theorem c6_witness :
    cellFor (JVal.obj [("start_time_utc", JVal.str "2024-01-15T10:00:00.000Z"),
        ("x", JVal.str "v")]) "start_time_utc"
      = Except.ok "2024-01-15 10:00:00" ∧
    cellFor (JVal.obj [("start_time_utc", JVal.str "2024-01-15T10:00:00.000Z"),
        ("x", JVal.str "v")]) "x"
      = Except.ok "v" := by
  constructor
  · rw [c6_date_column_formatting.2.1
      (JVal.obj [("start_time_utc", JVal.str "2024-01-15T10:00:00.000Z"),
        ("x", JVal.str "v")])
      "start_time_utc" (some (JVal.str "2024-01-15T10:00:00.000Z")) rfl]
    rfl
  · rw [c6_date_column_formatting.2.1
      (JVal.obj [("start_time_utc", JVal.str "2024-01-15T10:00:00.000Z"),
        ("x", JVal.str "v")])
      "x" (some (JVal.str "v")) rfl]
    rfl

/-- C7.  When the exporter's argument is absent, not an array, or an
empty array, the invocation is a no-op: after the diagnostic it returns
without producing any artifact, not even a partial one. -/
theorem c7_invalid_input_noop :
    ∀ j : Option JVal, (∀ xs : List JVal, j = some (JVal.arr xs) → xs = []) →
      downloadJsonAsCsv j = ExportResult.noop := by
  intro j hj
  cases j with
  | none => rfl
  | some v =>
    cases v with
    | arr xs =>
      have hxs := hj xs rfl
      subst hxs
      rfl
    | str s => rfl
    | num n => rfl
    | bool b => rfl
    | null => rfl
    | obj fs => rfl

/-- C7 (witness): the no-op theorem applied to an absent argument, a
non-array argument, and the empty array. -/
theorem c7_witness :
    downloadJsonAsCsv none = ExportResult.noop ∧
    downloadJsonAsCsv (some (JVal.str "oops")) = ExportResult.noop ∧
    downloadJsonAsCsv (some (JVal.arr [])) = ExportResult.noop :=
  ⟨c7_invalid_input_noop none (fun xs h => by cases h),
   c7_invalid_input_noop (some (JVal.str "oops")) (fun xs h => by cases h),
   c7_invalid_input_noop (some (JVal.arr [])) (fun xs h => by cases h; rfl)⟩

/-- C9.  Whenever the exporter saves an artifact, its content is the
UTF-8 byte-order-marker character, then the header row, then one data
row per record in record order, rows separated by single bare newlines;
in particular the BOM is the first character. -/
theorem c9_serialization_shape :
    ∀ (rs : List JVal) (s : String),
      downloadJsonAsCsv (some (JVal.arr rs)) = ExportResult.saved s →
      ∃ rows : List String,
        List.Forall₂ (fun r row => rowOfE (getHeaders rs) r = Except.ok row) rs rows ∧
        rows.length = rs.length ∧
        s = "\uFEFF" ++ String.intercalate "\n"
              (String.intercalate "," (getHeaders rs) :: rows) ∧
        s.data.head? = some '\uFEFF' := by
  intro rs s h
  have hred : downloadJsonAsCsv (some (JVal.arr rs)) =
      if rs.length = 0 then ExportResult.noop
      else
        match mapME (rowOfE (getHeaders rs)) rs with
        | Except.ok rows =>
            ExportResult.saved ("\uFEFF" ++ String.intercalate "\n"
              (String.intercalate "," (getHeaders rs) :: rows))
        | Except.error e => ExportResult.fault e := rfl
  rw [hred] at h
  by_cases hlen : rs.length = 0
  · rw [if_pos hlen] at h; cases h
  · rw [if_neg hlen] at h
    cases hm : mapME (rowOfE (getHeaders rs)) rs with
    | error e => rw [hm] at h; cases h
    | ok rows =>
      rw [hm] at h
      cases h
      have hf := mapME_ok_forall₂ hm
      refine ⟨rows, hf, hf.length_eq.symm, rfl, ?_⟩
      rw [String.data_append]
      rfl

/-- C9 (witness): the shape theorem applied to a concrete saved export;
the first character of the artifact is the byte-order marker. -/
theorem c9_witness :
    downloadJsonAsCsv (some (JVal.arr [JVal.obj [("a", JVal.num 1)]]))
      = ExportResult.saved "\uFEFFa\n1" ∧
    ("\uFEFFa\n1" : String).data.head? = some '\uFEFF' := by
  have h := c9_serialization_shape [JVal.obj [("a", JVal.num 1)]] "\uFEFFa\n1" rfl
  rcases h with ⟨rows, _, _, _, hhead⟩
  exact ⟨rfl, hhead⟩

end Curriculum
